import Mathlib

/-!
# Verification of the DTSynth DTB parser core (`src/dtsynth/dtb_parser.py`)

Shallow embedding of the property decoder, the two tree traversals, the
phandle indexer and the compatible-string extractor, together with proofs
of the specification's testable properties.

Bytes are modelled as `List Nat` (each element a byte value `< 256` where
that matters). The external blob decoder (the `fdt` library, out of scope
for the repository) is modelled by the `RawNode` tree it hands to the core:
named nodes carrying `(name, raw-bytes)` properties and ordered children.
-/

set_option autoImplicit false

namespace DtbParser

/-- Raw property data: a sequence of byte values. -/
abbrev Bytes := List Nat

/-- The decoded value of a property, one of the five variants the decoder
can produce: a single string, a list of strings, a single 32-bit cell,
a list of cells, or the raw bytes unchanged. -/
inductive PropValue where
  | str (s : String)
  | strs (ss : List String)
  | cell (n : Nat)
  | cells (ns : List Nat)
  | raw (bs : Bytes)
deriving DecidableEq

/-- Model of Python's `data.split(b'\x00')`: split a byte list on zero
bytes, keeping empty parts (a trailing null yields a trailing empty part). -/
def splitOnZero : Bytes → List Bytes
  | [] => [[]]
  | 0 :: rest => [] :: splitOnZero rest
  | b :: rest =>
    match splitOnZero rest with
    | part :: parts => (b :: part) :: parts
    | [] => [[b]]

/-- Model of `[data[i:i+4] for i in range(0, len(data), 4)]`: 4-byte chunks,
with a short final chunk when the length is not a multiple of 4. -/
def chunks4 : Bytes → List Bytes
  | a :: b :: c :: d :: rest => [a, b, c, d] :: chunks4 rest
  | [] => []
  | rest => [rest]

/-- Model of Python's `int.from_bytes(bs, byteorder='big')`. -/
def from_bytes_be (bs : Bytes) : Nat :=
  bs.foldl (fun acc b => acc * 256 + b) 0

/-- Valid range of the first continuation byte for a given UTF-8 lead byte
(the constrained leads are E0, ED, F0, F4; all others accept 80..BF). -/
def utf8ContRange (b : Nat) : Nat × Nat :=
  if b = 0xE0 then (0xA0, 0xBF)
  else if b = 0xED then (0x80, 0x9F)
  else if b = 0xF0 then (0x90, 0xBF)
  else if b = 0xF4 then (0x80, 0x8F)
  else (0x80, 0xBF)

/-- Pending state of the UTF-8 decoding automaton: accumulated code-point
prefix, number of continuation bytes still needed, and the valid range for
the next continuation byte. -/
abbrev Utf8State := Option (Nat × Nat × Nat × Nat)

/-- Classify a byte arriving with no pending multi-byte sequence: ASCII is
emitted directly, a valid lead byte opens a pending sequence, anything else
(a stray continuation byte, an overlong lead C0/C1, or F5..FF) is dropped. -/
def utf8Start (b : Nat) : Utf8State × List Nat :=
  if b < 0x80 then (none, [b])
  else if b < 0xC2 then (none, [])
  else if b ≤ 0xDF then (some (b - 0xC0, 1, 0x80, 0xBF), [])
  else if b ≤ 0xEF then (some (b - 0xE0, 2, (utf8ContRange b).1, (utf8ContRange b).2), [])
  else if b ≤ 0xF4 then (some (b - 0xF0, 3, (utf8ContRange b).1, (utf8ContRange b).2), [])
  else (none, [])

/-- One step of the UTF-8 decoding automaton. A continuation byte outside
its valid range drops the pending (maximal ill-formed) subpart and is
reclassified as the start of a new sequence. -/
def utf8Step : Utf8State → Nat → Utf8State × List Nat
  | none, b => utf8Start b
  | some (acc, k, lo, hi), b =>
    if lo ≤ b ∧ b ≤ hi then
      if k = 1 then (none, [acc * 64 + (b - 0x80)])
      else (some (acc * 64 + (b - 0x80), k - 1, 0x80, 0xBF), [])
    else utf8Start b

/-- Run the automaton; a sequence left incomplete at the end of input is
dropped, as `errors='ignore'` does. -/
def utf8IgnoreAux : Utf8State → List Nat → List Nat
  | _, [] => []
  | s, b :: rest => (utf8Step s b).2 ++ utf8IgnoreAux (utf8Step s b).1 rest

/-- Model of Python's `bytes.decode('utf-8', errors='ignore')` at the level
of code points: decode well-formed UTF-8 sequences, drop the maximal
subpart of any ill-formed sequence and resume at the offending byte. -/
def utf8Ignore (bs : List Nat) : List Nat := utf8IgnoreAux none bs

/-- Model of `part.decode('utf-8', errors='ignore')`: decoded code points
packed into a `String`. -/
def pyDecodeUtf8Ignore (bs : Bytes) : String :=
  String.mk ((utf8Ignore bs).map Char.ofNat)

/-- Guard of the decoder's string rule:
`b'\x00' in data and not all(b == 0 for b in data)`. -/
def stringGuard (data : Bytes) : Bool :=
  data.contains 0 && ! data.all (fun b => b == 0)

/-- Guard of the decoder's cell rule: `len(data) % 4 == 0 and len(data) > 0`. -/
def cellGuard (data : Bytes) : Bool :=
  data.length % 4 == 0 && decide (data.length > 0)

/-- Embedding of `DtbParser._decode_property`. -/
def decode_property (data : Bytes) : PropValue :=
  if stringGuard data then
    let string_parts :=
      ((splitOnZero data).filter (fun part => ! part.isEmpty)).map pyDecodeUtf8Ignore
    if string_parts.length = 1 then .str (string_parts.headD "") else .strs string_parts
  else if cellGuard data then
    let cells := (chunks4 data).map from_bytes_be
    if cells.length = 1 then .cell (cells.headD 0) else .cells cells
  else
    .raw data

/-- A node of the external blob decoder's object graph (the `fdt` library's
node abstraction, as consumed by the core): a name, the `(name, raw-bytes)`
property pairs in declaration order, and the named children in declaration
order. -/
inductive RawNode where
  | mk (name : String) (props : List (String × Bytes)) (children : List RawNode)

def RawNode.name : RawNode → String
  | .mk n _ _ => n

def RawNode.props : RawNode → List (String × Bytes)
  | .mk _ p _ => p

def RawNode.children : RawNode → List RawNode
  | .mk _ _ c => c

/-- Model of `node.get_property(name)`: the raw data of the first property
with the given name, or absence. -/
def get_property (props : List (String × Bytes)) (name : String) : Option Bytes :=
  (props.find? (fun pr => pr.1 == name)).map (fun pr => pr.2)

/-- The path-joining rule used by all three walks:
`f"{path}/{child_name}" if path != '/' else f"/{child_name}"`. -/
def joinPath (path child_name : String) : String :=
  if path ≠ "/" then path ++ "/" ++ child_name else "/" ++ child_name

/-- Model of Python's single-character `c in s` membership test. -/
def strContains (s : String) (c : Char) : Bool := s.toList.contains c

/-- Split a character list on a separator character, keeping empty parts —
the behavior of Python's `str.split(sep)` with an explicit separator. -/
def splitChar (c : Char) : List Char → List (List Char)
  | [] => [[]]
  | x :: xs =>
    if x == c then [] :: splitChar c xs
    else
      match splitChar c xs with
      | part :: parts => (x :: part) :: parts
      | [] => [[x]]

/-- Model of Python's `s.split(c)` for a one-character separator. -/
def strSplitOn (s : String) (c : Char) : List String :=
  (splitChar c s.toList).map String.mk

/-- The node-name rule shared by both traversals:
`path.split('/')[-1] if path != '/' else ''`. -/
def nodeNameOf (path : String) : String :=
  if path ≠ "/" then (strSplitOn path '/').getLastD "" else ""

/-- Model of a Python `dict` assignment `d[k] = v`: replace the value at the
first occurrence of the key, or append a new binding at the end. -/
def dictInsert {α β : Type} [BEq α] : List (α × β) → α → β → List (α × β)
  | [], k, v => [(k, v)]
  | kv :: rest, k, v =>
    if kv.1 == k then (k, v) :: rest else kv :: dictInsert rest k v

/-- Model of a Python `dict` lookup `d.get(k)`: the value bound to the
first (and, for dictionaries, only) occurrence of the key, or absence. -/
def dictGet {α β : Type} [BEq α] : List (α × β) → α → Option β
  | [], _ => none
  | kv :: rest, k => if kv.1 == k then some kv.2 else dictGet rest k

/-- The property dictionary built by both traversals:
`for prop_name, prop_value in node.props(): props[prop_name] = self._decode_property(prop_value)`. -/
def decodeProps (props : List (String × Bytes)) : List (String × PropValue) :=
  props.foldl (fun m pr => dictInsert m pr.1 (decode_property pr.2)) []

/-- The node objects produced by `get_root_node` (class `FdtNode`). -/
inductive FdtNode where
  | mk (name path : String) (properties : List (String × PropValue)) (children : List FdtNode)

def FdtNode.name : FdtNode → String
  | .mk n _ _ _ => n

def FdtNode.path : FdtNode → String
  | .mk _ p _ _ => p

def FdtNode.properties : FdtNode → List (String × PropValue)
  | .mk _ _ pr _ => pr

def FdtNode.children : FdtNode → List FdtNode
  | .mk _ _ _ c => c

/-- The records produced by `traverse_tree`: path, name, optional unit
address, decoded properties, and child records. -/
inductive RecNode where
  | mk (path name : String) (address : Option String)
       (props : List (String × PropValue)) (children : List RecNode)

def RecNode.path : RecNode → String
  | .mk p _ _ _ _ => p

def RecNode.name : RecNode → String
  | .mk _ n _ _ _ => n

def RecNode.address : RecNode → Option String
  | .mk _ _ a _ _ => a

def RecNode.props : RecNode → List (String × PropValue)
  | .mk _ _ _ pr _ => pr

def RecNode.children : RecNode → List RecNode
  | .mk _ _ _ _ c => c

mutual
/-- Embedding of `DtbParser._convert_fdt_node_to_custom`. -/
def convert_fdt_node_to_custom (path : String) : RawNode → FdtNode
  | .mk _ props children =>
    .mk (nodeNameOf path) path (decodeProps props) (convertChildrenAux path children)

/-- The `for child_name, child_node in fdt_node.subnodes()` loop of
`_convert_fdt_node_to_custom`. -/
def convertChildrenAux (path : String) : List RawNode → List FdtNode
  | [] => []
  | c :: cs => convert_fdt_node_to_custom (joinPath path c.name) c :: convertChildrenAux path cs
end

/-- Embedding of `DtbParser.get_root_node`. -/
def get_root_node (dtb : RawNode) : FdtNode :=
  convert_fdt_node_to_custom "/" dtb

/-- The `address` computation of `traverse_tree.build_node_dict`:
`node_name.split('@')[1] if '@' in node_name else None`. -/
def addressOf (node_name : String) : Option String :=
  if strContains node_name '@' then some ((strSplitOn node_name '@').getD 1 "") else none

mutual
/-- Embedding of `traverse_tree.build_node_dict`. -/
def build_node_dict (path : String) : RawNode → RecNode
  | .mk _ props children =>
    .mk path (nodeNameOf path) (addressOf (nodeNameOf path))
      (decodeProps props) (buildChildrenAux path children)

/-- The `for child_name, child_node in fdt_node.subnodes()` loop of
`build_node_dict`. -/
def buildChildrenAux (path : String) : List RawNode → List RecNode
  | [] => []
  | c :: cs => build_node_dict (joinPath path c.name) c :: buildChildrenAux path cs
end

/-- Embedding of `DtbParser.traverse_tree`. -/
def traverse_tree (dtb : RawNode) : List RecNode :=
  [build_node_dict "/" dtb]

mutual
/-- The `(phandle_value, node_path)` insertions performed by
`_build_phandle_map.traverse_for_phandle`, in execution order: the node's
own entry (when a `phandle` property is present) followed by the entries of
its children, depth-first. -/
def phandleEntries (node_path : String) : RawNode → List (Nat × String)
  | .mk _ props children =>
    (match get_property props "phandle" with
     | some d => [(from_bytes_be (d.take 4), node_path)]
     | none => []) ++ phandleEntriesList node_path children

/-- The `for child_name, child_node in node.subnodes()` loop of
`traverse_for_phandle`. -/
def phandleEntriesList (node_path : String) : List RawNode → List (Nat × String)
  | [] => []
  | c :: cs => phandleEntries (joinPath node_path c.name) c ++ phandleEntriesList node_path cs
end

/-- Embedding of `DtbParser._build_phandle_map`: the dictionary obtained by
performing the depth-first insertions in order. -/
def build_phandle_map (dtb : RawNode) : List (Nat × String) :=
  (phandleEntries "/" dtb).foldl (fun m e => dictInsert m e.1 e.2) []

/-- Embedding of `DtbParser.resolve_phandle`: `self._phandle_map.get(phandle_value)`. -/
def resolve_phandle (phandle_map : List (Nat × String)) (phandle_value : Nat) : Option String :=
  dictGet phandle_map phandle_value

/-- Embedding of `DtbParser.get_compatible_strings`. -/
def get_compatible_strings (dtb : RawNode) : List String :=
  match get_property dtb.props "compatible" with
  | some data =>
      ((splitOnZero data).filter (fun part => ! part.isEmpty)).map pyDecodeUtf8Ignore
  | none => []

mutual
/-- The depth-first list of `(path, node)` pairs visited by the recursive
walks, root first — a specification-side description of the traversal order
used to state properties of the phandle index. -/
def dfsNodes (path : String) : RawNode → List (String × RawNode)
  | .mk nm props children => (path, .mk nm props children) :: dfsNodesList path children

def dfsNodesList (path : String) : List RawNode → List (String × RawNode)
  | [] => []
  | c :: cs => dfsNodes (joinPath path c.name) c ++ dfsNodesList path cs
end

example : decode_property [102, 111, 111, 0, 98, 97, 114, 0] = .strs ["foo", "bar"] := by decide
example : decode_property [0] = .raw [0] := by decide
example : decode_property [0xFF, 0] = .str "" := by decide
example : decode_property [0, 0, 0, 5] = .str (String.mk [Char.ofNat 5]) := by decide
example : decode_property [1, 2, 3, 4] = .cell 16909060 := by decide
example : decode_property [] = .raw [] := by decide
example : decode_property [1, 2, 3, 4, 5, 6, 7, 8] = .cells [16909060, 84281096] := by decide
example : decode_property [97, 98, 99, 0] = .str "abc" := by decide


example : build_phandle_map (RawNode.mk "" [("phandle", [])] []) = [(0, "/")] := by decide
example : get_compatible_strings (RawNode.mk "" [("compatible", [102,111,111,0,98,97,114,0])] []) = ["foo","bar"] := by decide
example : (((traverse_tree (RawNode.mk "" [] [RawNode.mk "a@b@c" [] []])).headD (RecNode.mk "" "" none [] [])).children.headD (RecNode.mk "" "" none [] [])).address = some "b" := by decide
example : nodeNameOf "/a@b@c" = "a@b@c" := by decide
example : joinPath "/x" "y" = "/x/y" := by decide

/-! ## Dictionary lemmas

Python-`dict` semantics of `dictInsert`/`dictGet`: last writer wins across
an insertion sequence, keys stay pairwise distinct, and lookup is faithful
to membership. -/

/-- The value of the last insertion with key `v` among an insertion
sequence, if any — the "last writer wins" semantics of repeated dictionary
assignment. -/
def lastVal (es : List (Nat × String)) (v : Nat) : Option String :=
  match es with
  | [] => none
  | e :: rest =>
    match lastVal rest v with
    | some w => some w
    | none => if e.1 == v then some e.2 else none

/-- The keys of an association list. -/
def keys (m : List (Nat × String)) : List Nat := m.map Prod.fst

theorem dictGet_dictInsert (m : List (Nat × String)) (k : Nat) (v : String) (k' : Nat) :
    dictGet (dictInsert m k v) k' = if k' = k then some v else dictGet m k' := by
  induction m with
  | nil =>
    by_cases h : k' = k
    · simp [dictInsert, dictGet, beq_iff_eq, h]
    · simp [dictInsert, dictGet, beq_iff_eq, h, Ne.symm h]
  | cons kv rest ih =>
    obtain ⟨a, b⟩ := kv
    by_cases hak : a = k
    · subst hak
      by_cases h : k' = a
      · subst h
        simp [dictInsert, dictGet, beq_iff_eq]
      · simp [dictInsert, dictGet, beq_iff_eq, h, Ne.symm h]
    · by_cases h2 : a = k'
      · subst h2
        simp [dictInsert, dictGet, beq_iff_eq, hak, Ne.symm hak]
      · simp [dictInsert, dictGet, beq_iff_eq, hak, h2, ih]

theorem dictGet_foldl_dictInsert (es : List (Nat × String)) (m : List (Nat × String)) (v : Nat) :
    dictGet (es.foldl (fun m e => dictInsert m e.1 e.2) m) v =
      match lastVal es v with
      | some w => some w
      | none => dictGet m v := by
  induction es generalizing m with
  | nil => simp [lastVal]
  | cons e rest ih =>
    simp only [List.foldl_cons, lastVal]
    rw [ih]
    cases h : lastVal rest v with
    | some w => simp
    | none =>
      simp only []
      rw [dictGet_dictInsert]
      by_cases hv : v = e.1
      · simp [hv, beq_iff_eq]
      · have hb : (e.1 == v) = false := by simpa using Ne.symm hv
        simp [hv, hb]

theorem dictInsert_cons_self (a : Nat) (b v : String) (rest : List (Nat × String)) :
    dictInsert ((a, b) :: rest) a v = (a, v) :: rest := by
  simp [dictInsert]

theorem dictInsert_cons_ne (a k : Nat) (b v : String) (rest : List (Nat × String))
    (h : a ≠ k) : dictInsert ((a, b) :: rest) k v = (a, b) :: dictInsert rest k v := by
  have hb : (a == k) = false := by simpa using h
  simp [dictInsert, hb]

theorem mem_keys_dictInsert (m : List (Nat × String)) (k : Nat) (v : String) (x : Nat)
    (hx : x ∈ keys (dictInsert m k v)) : x = k ∨ x ∈ keys m := by
  induction m with
  | nil => simpa [dictInsert, keys] using hx
  | cons kv rest ih =>
    obtain ⟨a, b⟩ := kv
    by_cases hak : a = k
    · subst hak
      rw [dictInsert_cons_self] at hx
      simp only [keys, List.map_cons, List.mem_cons] at hx ⊢
      rcases hx with h | h
      · exact Or.inl h
      · exact Or.inr (Or.inr h)
    · rw [dictInsert_cons_ne a k b v rest hak] at hx
      simp only [keys, List.map_cons, List.mem_cons] at hx ⊢
      rcases hx with h | h
      · exact Or.inr (Or.inl h)
      · rcases ih h with h2 | h2
        · exact Or.inl h2
        · exact Or.inr (Or.inr h2)

theorem keys_nodup_dictInsert (m : List (Nat × String)) (k : Nat) (v : String)
    (h : (keys m).Nodup) : (keys (dictInsert m k v)).Nodup := by
  induction m with
  | nil => simp [dictInsert, keys]
  | cons kv rest ih =>
    obtain ⟨a, b⟩ := kv
    simp only [keys, List.map_cons, List.nodup_cons] at h
    by_cases hak : a = k
    · subst hak
      rw [dictInsert_cons_self]
      simp only [keys, List.map_cons, List.nodup_cons]
      exact ⟨h.1, h.2⟩
    · rw [dictInsert_cons_ne a k b v rest hak]
      simp only [keys, List.map_cons, List.nodup_cons]
      refine ⟨fun hmem => ?_, ih h.2⟩
      rcases mem_keys_dictInsert rest k v a hmem with h2 | h2
      · exact hak h2
      · exact h.1 h2

theorem keys_nodup_foldl (es : List (Nat × String)) (m : List (Nat × String))
    (h : (keys m).Nodup) :
    (keys (es.foldl (fun m e => dictInsert m e.1 e.2) m)).Nodup := by
  induction es generalizing m with
  | nil => exact h
  | cons e rest ih => exact ih _ (keys_nodup_dictInsert m e.1 e.2 h)

theorem dictGet_eq_none_iff (m : List (Nat × String)) (v : Nat) :
    dictGet m v = none ↔ ∀ p, (v, p) ∉ m := by
  induction m with
  | nil => simp [dictGet]
  | cons kv rest ih =>
    obtain ⟨a, b⟩ := kv
    by_cases h : a = v
    · subst h
      refine iff_of_false (by simp [dictGet]) (fun hall => hall b (List.mem_cons_self _ _))
    · have hb : (a == v) = false := by simpa using h
      simp only [dictGet, hb, Bool.false_eq_true, if_false]
      rw [ih]
      constructor
      · intro h1 p hp
        rcases List.mem_cons.mp hp with h2 | h2
        · exact h (congrArg Prod.fst h2).symm
        · exact h1 p h2
      · intro h1 p hp
        exact h1 p (List.mem_cons_of_mem _ hp)

theorem dictGet_of_mem (m : List (Nat × String)) (v : Nat) (p : String)
    (hn : (keys m).Nodup) (h : (v, p) ∈ m) : dictGet m v = some p := by
  induction m with
  | nil => simp at h
  | cons kv rest ih =>
    obtain ⟨a, b⟩ := kv
    simp only [keys, List.map_cons, List.nodup_cons] at hn
    rcases List.mem_cons.mp h with h1 | h1
    · have hva : v = a := congrArg Prod.fst h1
      have hpb : p = b := congrArg Prod.snd h1
      subst hva; subst hpb
      simp [dictGet]
    · have hne : a ≠ v := by
        intro he
        exact hn.1 (he ▸ List.mem_map.mpr ⟨(v, p), h1, rfl⟩)
      have hb : (a == v) = false := by simpa using hne
      simp only [dictGet, hb, Bool.false_eq_true, if_false]
      exact ih hn.2 h1

/-! ## The phandle index as a function of the depth-first node walk -/

/-- The phandle-index entry contributed by a visited `(path, node)` pair:
present when the node declares a `phandle` property, keyed by the
big-endian value of the property's first (up to) 4 data bytes. -/
def entryOf (pn : String × RawNode) : Option (Nat × String) :=
  (get_property pn.2.props "phandle").map (fun d => (from_bytes_be (d.take 4), pn.1))

mutual
theorem phandleEntries_eq_dfs (p : String) (t : RawNode) :
    phandleEntries p t = (dfsNodes p t).filterMap entryOf := by
  cases t with
  | mk nm props cs =>
    simp only [phandleEntries, dfsNodes, List.filterMap_cons, entryOf, RawNode.props]
    cases h : get_property props "phandle" with
    | none => simp [h, phandleEntriesList_eq_dfs p cs]
    | some d => simp [h, phandleEntriesList_eq_dfs p cs]

theorem phandleEntriesList_eq_dfs (p : String) (cs : List RawNode) :
    phandleEntriesList p cs = (dfsNodesList p cs).filterMap entryOf := by
  cases cs with
  | nil => simp [phandleEntriesList, dfsNodesList]
  | cons c cs' =>
    simp only [phandleEntriesList, dfsNodesList, List.filterMap_append]
    rw [phandleEntries_eq_dfs (joinPath p c.name) c, phandleEntriesList_eq_dfs p cs']
end

theorem build_phandle_map_keys_nodup (t : RawNode) : (keys (build_phandle_map t)).Nodup :=
  keys_nodup_foldl _ _ (by simp [keys])

theorem build_phandle_map_get (t : RawNode) (v : Nat) :
    dictGet (build_phandle_map t) v = lastVal ((dfsNodes "/" t).filterMap entryOf) v := by
  unfold build_phandle_map
  rw [dictGet_foldl_dictInsert, phandleEntries_eq_dfs]
  cases h : lastVal ((dfsNodes "/" t).filterMap entryOf) v <;> simp [dictGet]

/-- The string-rule guard in the specification's vocabulary: the data
contains a null byte and is not entirely composed of zero bytes. -/
theorem stringGuard_iff (data : Bytes) :
    stringGuard data = true ↔ 0 ∈ data ∧ ∃ b ∈ data, b ≠ 0 := by
  simp [stringGuard, List.all_eq_false]

/-- The cell-rule guard in the specification's vocabulary: the data is
non-empty and its length is a multiple of 4. -/
theorem cellGuard_iff (data : Bytes) :
    cellGuard data = true ↔ data ≠ [] ∧ data.length % 4 = 0 := by
  simp only [cellGuard, Bool.and_eq_true, beq_iff_eq, decide_eq_true_eq, gt_iff_lt,
    List.length_pos]
  exact ⟨fun h => ⟨h.2, h.1⟩, fun h => ⟨h.2, h.1⟩⟩

/-! ## Claims -/

/-- C1: every byte sequence that contains a null byte and is not all-zero
is decoded by `_decode_property` to a single string or to a list of
strings — never to an integer, a list of integers, or raw bytes — even
when its length is also a non-zero multiple of 4 (the string rule is
checked before the cell rule). -/
theorem C1_string_rule_shape (data : Bytes) (h0 : 0 ∈ data) (h1 : ∃ b ∈ data, b ≠ 0) :
    (∃ s, decode_property data = PropValue.str s) ∨
    (∃ ss, decode_property data = PropValue.strs ss) := by
  have h : stringGuard data = true := (stringGuard_iff data).mpr ⟨h0, h1⟩
  simp only [decode_property, h, if_true]
  split
  · exact Or.inl ⟨_, rfl⟩
  · exact Or.inr ⟨_, rfl⟩

/-- Witness for C1, at an input whose length is also a non-zero multiple
of 4 (`b"abc\x00"`), showing the string rule takes precedence there. -/
theorem C1_string_rule_shape_witness :
    (0 : Nat) ∈ [97, 98, 99, 0]
  ∧ (∃ b ∈ [97, 98, 99, 0], b ≠ 0)
  ∧ ((∃ s, decode_property [97, 98, 99, 0] = PropValue.str s) ∨
     (∃ ss, decode_property [97, 98, 99, 0] = PropValue.strs ss)) :=
  ⟨by decide, by decide, C1_string_rule_shape [97, 98, 99, 0] (by decide) (by decide)⟩

/-- C3: `_decode_property` is total and deterministic — being a function of
the byte sequence alone, every input (the empty one included) maps to
exactly one result — and every input matched by neither the string rule
nor the cell rule is returned as the raw bytes unchanged; in particular
the empty sequence maps to itself. -/
theorem C3_total_trichotomy (data : Bytes) :
    (stringGuard data = true ↔ 0 ∈ data ∧ ∃ b ∈ data, b ≠ 0)
  ∧ (cellGuard data = true ↔ data ≠ [] ∧ data.length % 4 = 0)
  ∧ ((stringGuard data = true ∧
       ((∃ s, decode_property data = PropValue.str s) ∨
        (∃ ss, decode_property data = PropValue.strs ss)))
     ∨ (stringGuard data = false ∧ cellGuard data = true ∧
         ((∃ n, decode_property data = PropValue.cell n) ∨
          (∃ ns, decode_property data = PropValue.cells ns)))
     ∨ (stringGuard data = false ∧ cellGuard data = false ∧
         decode_property data = PropValue.raw data))
  ∧ decode_property [] = PropValue.raw [] := by
  refine ⟨stringGuard_iff data, cellGuard_iff data, ?_, by decide⟩
  cases hs : stringGuard data with
  | true =>
    refine Or.inl ⟨rfl, ?_⟩
    simp only [decode_property, hs, if_true]
    split
    · exact Or.inl ⟨_, rfl⟩
    · exact Or.inr ⟨_, rfl⟩
  | false =>
    cases hc : cellGuard data with
    | true =>
      refine Or.inr (Or.inl ⟨rfl, rfl, ?_⟩)
      simp only [decode_property, hs, hc, if_true, Bool.false_eq_true, if_false]
      split
      · exact Or.inl ⟨_, rfl⟩
      · exact Or.inr ⟨_, rfl⟩
    | false =>
      refine Or.inr (Or.inr ⟨rfl, rfl, ?_⟩)
      simp only [decode_property, hs, hc, Bool.false_eq_true, if_false]

/-- C4 counterexample: a tree whose only node declares a `phandle` property
with fewer than 4 bytes of data (here: zero bytes). No node declares a
`phandle` with at least 4 bytes, yet the index is not empty — it maps the
big-endian value of the short data (0) to the root path. -/
theorem C4_short_phandle_cex :
    build_phandle_map (RawNode.mk "" [("phandle", [])] []) = [(0, "/")]
  ∧ ((dfsNodes "/" (RawNode.mk "" [("phandle", [])] [])).all
       (fun pn => decide (((get_property pn.2.props "phandle").getD []).length < 4))) = true :=
  ⟨by decide, by decide⟩

/-- C4 (amended): the phandle index has pairwise-distinct keys, and lookup
at any value `v` returns exactly the path recorded by the **last** node in
the depth-first walk that declares a `phandle` property whose first
`min(4, length)` data bytes decode (big-endian) to `v` — one entry per
declared value, any data length accepted, last writer winning. For nodes
whose `phandle` data has at least 4 bytes this key is the big-endian
32-bit value of the first 4 bytes, as the original claim states. -/
theorem C4_phandle_index_characterization (t : RawNode) :
    (keys (build_phandle_map t)).Nodup
  ∧ ∀ v : Nat, dictGet (build_phandle_map t) v =
      lastVal ((dfsNodes "/" t).filterMap entryOf) v :=
  ⟨build_phandle_map_keys_nodup t, fun v => build_phandle_map_get t v⟩

/-- C9: `resolve_phandle` returns absence exactly when the value is not a
key of the precomputed index, and returns the indexed node path when it
is; being a pure lookup into the map built at construction, it can neither
fail nor mutate the index. -/
theorem C9_resolve_phandle_total (t : RawNode) (v : Nat) :
    (resolve_phandle (build_phandle_map t) v = none ↔ ∀ p, (v, p) ∉ build_phandle_map t)
  ∧ ∀ p, (v, p) ∈ build_phandle_map t → resolve_phandle (build_phandle_map t) v = some p := by
  constructor
  · exact dictGet_eq_none_iff _ v
  · intro p hp
    exact dictGet_of_mem _ v p (build_phandle_map_keys_nodup t) hp

/-- Witness for C9: a root declaring `phandle = <0x5>` resolves 5 to `/`. -/
theorem C9_resolve_phandle_total_witness :
    (5, "/") ∈ build_phandle_map (RawNode.mk "" [("phandle", [0, 0, 0, 5])] [])
  ∧ resolve_phandle (build_phandle_map (RawNode.mk "" [("phandle", [0, 0, 0, 5])] [])) 5 =
      some "/" :=
  ⟨by decide,
   (C9_resolve_phandle_total (RawNode.mk "" [("phandle", [0, 0, 0, 5])] []) 5).2 "/" (by decide)⟩

/-! ## Cell-rule lemmas -/

theorem chunks4_length (data : Bytes) (h : data.length % 4 = 0) :
    (chunks4 data).length = data.length / 4 := by
  induction data using chunks4.induct with
  | case1 a b c d rest ih =>
    simp only [chunks4, List.length_cons]
    simp only [List.length_cons] at h
    have h4 : rest.length % 4 = 0 := by omega
    rw [ih h4]
    omega
  | case2 => simp [chunks4]
  | case3 rest h1 h2 =>
    exfalso
    cases rest with
    | nil => exact h2 rfl
    | cons x xs =>
      cases xs with
      | nil => simp at h
      | cons y ys =>
        cases ys with
        | nil => simp at h
        | cons z zs =>
          cases zs with
          | nil => simp at h
          | cons w ws => exact h1 x y z w ws rfl

theorem chunks4_getD (data : Bytes) (h : data.length % 4 = 0) :
    ∀ i, i < data.length / 4 → (chunks4 data).getD i [] = (data.drop (4 * i)).take 4 := by
  induction data using chunks4.induct with
  | case1 a b c d rest ih =>
    intro i hi
    simp only [List.length_cons] at h hi
    have h4 : rest.length % 4 = 0 := by omega
    cases i with
    | zero => simp [chunks4]
    | succ j =>
      have hj : j < rest.length / 4 := by omega
      simp only [chunks4, List.getD_cons_succ]
      rw [ih h4 j hj]
      have h44 : 4 * (j + 1) = 4 + 4 * j := by omega
      rw [h44, ← List.drop_drop]
      rfl
  | case2 => intro i hi; simp at hi
  | case3 rest h1 h2 =>
    intro i hi
    exfalso
    cases rest with
    | nil => exact h2 rfl
    | cons x xs =>
      cases xs with
      | nil => simp at h
      | cons y ys =>
        cases ys with
        | nil => simp at h
        | cons z zs =>
          cases zs with
          | nil => simp at h
          | cons w ws => exact h1 x y z w ws rfl

theorem getD_map_from_bytes (l : List Bytes) (i : Nat) (hi : i < l.length) :
    (l.map from_bytes_be).getD i 0 = from_bytes_be (l.getD i []) := by
  induction l generalizing i with
  | nil => simp at hi
  | cons x xs ih =>
    cases i with
    | zero => simp
    | succ j =>
      simp only [List.map_cons, List.getD_cons_succ]
      exact ih j (by simpa using hi)

theorem foldl_bytes_lt (bs : Bytes) : ∀ a : Nat, (∀ b ∈ bs, b < 256) →
    bs.foldl (fun acc b => acc * 256 + b) a < (a + 1) * 256 ^ bs.length := by
  induction bs with
  | nil => intro a _; simp
  | cons b rest ih =>
    intro a h
    have hb : b < 256 := h b (List.mem_cons_self _ _)
    have h1 := ih (a * 256 + b) (fun x hx => h x (List.mem_cons_of_mem _ hx))
    simp only [List.foldl_cons, List.length_cons]
    calc List.foldl (fun acc b => acc * 256 + b) (a * 256 + b) rest
        < (a * 256 + b + 1) * 256 ^ rest.length := h1
      _ ≤ ((a + 1) * 256) * 256 ^ rest.length :=
          Nat.mul_le_mul_right _ (by omega)
      _ = (a + 1) * 256 ^ (rest.length + 1) := by rw [pow_succ]; ring

theorem from_bytes_be_lt (bs : Bytes) (h : ∀ b ∈ bs, b < 256) :
    from_bytes_be bs < 256 ^ bs.length := by
  simpa [from_bytes_be] using foldl_bytes_lt bs 0 h

theorem from_bytes_be_lt_2_32 (bs : Bytes) (h : ∀ b ∈ bs, b < 256)
    (hlen : bs.length ≤ 4) : from_bytes_be bs < 2 ^ 32 := by
  have h1 := from_bytes_be_lt bs h
  have h2 : (256 : Nat) ^ bs.length ≤ 256 ^ 4 :=
    Nat.pow_le_pow_right (by norm_num) hlen
  have h3 : (256 : Nat) ^ 4 = 2 ^ 32 := by norm_num
  omega

/-- C2: a non-empty byte sequence whose length is a multiple of 4 and which
contains no null byte decodes to a single big-endian unsigned 32-bit
integer when the length is exactly 4, and to the ordered list of big-endian
32-bit values of its consecutive 4-byte chunks when the length exceeds 4;
the list has one element per 4 bytes, its `i`-th element is the big-endian
value of bytes `4i..4i+3`, and every element fits in 32 bits. -/
theorem C2_cell_rule (data : Bytes)
    (h0 : 0 ∉ data) (h4 : data.length % 4 = 0) (hne : data ≠ [])
    (hv : ∀ b ∈ data, b < 256) :
    (data.length = 4 → decode_property data = PropValue.cell (from_bytes_be data))
  ∧ (4 < data.length → decode_property data = PropValue.cells ((chunks4 data).map from_bytes_be))
  ∧ ((chunks4 data).map from_bytes_be).length = data.length / 4
  ∧ ∀ i, i < data.length / 4 →
      ((chunks4 data).map from_bytes_be).getD i 0 = from_bytes_be ((data.drop (4 * i)).take 4)
      ∧ from_bytes_be ((data.drop (4 * i)).take 4) < 2 ^ 32 := by
  have hs : stringGuard data = false := by
    rw [Bool.eq_false_iff]
    intro htrue
    exact h0 ((stringGuard_iff data).mp htrue).1
  have hlen0 : data.length ≠ 0 := fun he => hne (List.length_eq_zero.mp he)
  have hc : cellGuard data = true := by
    simp [cellGuard, h4]
    omega
  have hclen : (chunks4 data).length = data.length / 4 := chunks4_length data h4
  have hmaplen : ((chunks4 data).map from_bytes_be).length = data.length / 4 := by
    simpa using hclen
  have hgetD : ∀ i, i < data.length / 4 →
      ((chunks4 data).map from_bytes_be).getD i 0 =
        from_bytes_be ((data.drop (4 * i)).take 4) := by
    intro i hi
    rw [getD_map_from_bytes _ i (by omega), chunks4_getD data h4 i hi]
  refine ⟨?_, ?_, hmaplen, fun i hi => ⟨hgetD i hi, ?_⟩⟩
  · intro hl4
    have hone : ((chunks4 data).map from_bytes_be).length = 1 := by
      rw [hmaplen, hl4]
    obtain ⟨x, hx⟩ := List.length_eq_one.mp hone
    have htake : data.take 4 = data := List.take_of_length_le (by omega)
    have hxval : x = from_bytes_be data := by
      have h00 := hgetD 0 (by omega)
      rw [hx] at h00
      simpa [htake] using h00
    simp only [decode_property, hs, Bool.false_eq_true, if_false, hc, if_true, hx]
    simp [hxval]
  · intro hl4
    have hne1 : ((chunks4 data).map from_bytes_be).length ≠ 1 := by
      rw [hmaplen]
      omega
    simp only [decode_property, hs, Bool.false_eq_true, if_false, hc, if_true, if_neg hne1]
  · apply from_bytes_be_lt_2_32
    · intro b hb
      have hb1 : b ∈ data.drop (4 * i) := List.take_subset _ _ hb
      exact hv b (List.drop_subset _ _ hb1)
    · simp only [List.length_take]
      omega

/-- Witness for C2 at `bytes([1,2,3,4,5,6,7,8])`: no null byte, length a
multiple of 4 and greater than 4, decoding to the two big-endian cells. -/
theorem C2_cell_rule_witness :
    ((0 : Nat) ∉ ([1, 2, 3, 4, 5, 6, 7, 8] : Bytes))
  ∧ decode_property [1, 2, 3, 4, 5, 6, 7, 8] =
      PropValue.cells ((chunks4 [1, 2, 3, 4, 5, 6, 7, 8]).map from_bytes_be) :=
  ⟨by decide,
   (C2_cell_rule [1, 2, 3, 4, 5, 6, 7, 8] (by decide) (by decide) (by decide)
      (by decide)).2.1 (by decide)⟩

/-! ## String-rule lemmas -/

theorem filtered_segments_ne_nil (data : Bytes) (hnz : ∃ b ∈ data, b ≠ 0) :
    (splitOnZero data).filter (fun part => ! part.isEmpty) ≠ [] := by
  induction data with
  | nil => simp at hnz
  | cons b rest ih =>
    obtain ⟨x, hx, hxne⟩ := hnz
    cases b with
    | zero =>
      have hxr : x ∈ rest := by
        rcases List.mem_cons.mp hx with h | h
        · exact absurd h hxne
        · exact h
      simp only [splitOnZero, List.filter_cons, List.isEmpty_nil, Bool.not_true,
        Bool.false_eq_true, if_false]
      exact ih ⟨x, hxr, hxne⟩
    | succ n =>
      simp only [splitOnZero]
      cases h : splitOnZero rest with
      | nil => simp
      | cons part parts => simp

/-- C6 counterexample: a property value of a single lone null byte is
all-zero, so it fails the string rule; `_decode_property` returns it as raw
bytes, not as an empty sequence of strings. -/
theorem C6_lone_null_cex :
    decode_property [0] = PropValue.raw [0] ∧ PropValue.raw [0] ≠ PropValue.strs [] :=
  ⟨by decide, by decide⟩

/-- C6 (amended): an input classified as string data (contains a null byte
and is not all-zero) always keeps at least one segment after filtering —
its nonzero byte lies in some non-empty part — so the zero-surviving-
segment outcome never occurs; a lone null byte in particular fails the
string rule (it is all-zero) and decodes to the raw bytes unchanged. -/
theorem C6_string_segments_never_vanish :
    (∀ data : Bytes, 0 ∈ data → (∃ b ∈ data, b ≠ 0) →
       (splitOnZero data).filter (fun part => ! part.isEmpty) ≠ [])
  ∧ decode_property [0] = PropValue.raw [0] := by
  exact ⟨fun data _ h1 => filtered_segments_ne_nil data h1, by decide⟩

/-- Witness for C6 (amended) at `b"a\x00"`. -/
theorem C6_string_segments_never_vanish_witness :
    (0 : Nat) ∈ [97, 0]
  ∧ (∃ b ∈ [97, 0], b ≠ 0)
  ∧ (splitOnZero [97, 0]).filter (fun part => ! part.isEmpty) ≠ [] :=
  ⟨by decide, by decide,
   C6_string_segments_never_vanish.1 [97, 0] (by decide) (by decide)⟩

/-- C10: string segments are filtered on the raw bytes before best-effort
decoding, so a non-empty segment of text-invalid bytes survives and decodes
to the empty string: `b"\xff\x00"` yields the single empty string, and
`b"\xff\xff\x00\xff\x00"` yields two empty strings. -/
theorem C10_filter_before_decoding :
    decode_property [0xFF, 0] = PropValue.str ""
  ∧ decode_property [0xFF, 0xFF, 0, 0xFF, 0] = PropValue.strs ["", ""] :=
  ⟨by decide, by decide⟩

/-- C8: `get_compatible_strings` always returns a list — the empty list
when the root has no `compatible` property, and otherwise the null-split,
empty-segment-filtered, best-effort-decoded segments of the property's
data, never collapsing a single element to a bare string: `b"foo\x00bar\x00"`
yields `["foo", "bar"]` and `b"foo\x00"` yields the one-element `["foo"]`. -/
theorem C8_compatible_strings (dtb : RawNode) :
    (get_property dtb.props "compatible" = none → get_compatible_strings dtb = [])
  ∧ (∀ data, get_property dtb.props "compatible" = some data →
       get_compatible_strings dtb =
         ((splitOnZero data).filter (fun part => ! part.isEmpty)).map pyDecodeUtf8Ignore)
  ∧ get_compatible_strings
      (RawNode.mk "" [("compatible", [102, 111, 111, 0, 98, 97, 114, 0])] []) = ["foo", "bar"]
  ∧ get_compatible_strings (RawNode.mk "" [("compatible", [102, 111, 111, 0])] []) = ["foo"] := by
  refine ⟨?_, ?_, by decide, by decide⟩
  · intro h
    simp [get_compatible_strings, h]
  · intro data h
    simp [get_compatible_strings, h]

/-- Witness for C8 at a root with no `compatible` property. -/
theorem C8_compatible_strings_witness :
    get_property (RawNode.mk "" [] []).props "compatible" = none
  ∧ get_compatible_strings (RawNode.mk "" [] []) = [] :=
  ⟨by decide, (C8_compatible_strings (RawNode.mk "" [] [])).1 (by decide)⟩

/-! ## Address-field lemmas (C7) -/

/-- The characters after the **first** occurrence of `c`, or the empty list
when `c` does not occur — an independent rendering of "the substring after
the first `c`". -/
def afterChar (c : Char) : List Char → List Char
  | [] => []
  | x :: xs => if x == c then xs else afterChar c xs

theorem splitChar_of_count_zero (c : Char) (l : List Char) (h : l.count c = 0) :
    splitChar c l = [l] := by
  induction l with
  | nil => simp [splitChar]
  | cons x xs ih =>
    have hx : x ≠ c := by
      intro he
      rw [List.count_cons] at h
      simp [he] at h
    have hxs : xs.count c = 0 := by
      rw [List.count_cons] at h
      omega
    have hb : (x == c) = false := by simpa using hx
    simp only [splitChar, hb, Bool.false_eq_true, if_false, ih hxs]

theorem splitChar_of_count_one (c : Char) (l : List Char) (h : l.count c = 1) :
    ∃ pre, splitChar c l = [pre, afterChar c l] := by
  induction l with
  | nil => simp at h
  | cons x xs ih =>
    by_cases hx : x = c
    · subst hx
      have hxs : xs.count x = 0 := by
        rw [List.count_cons] at h
        simp at h
        omega
      refine ⟨[], ?_⟩
      simp [splitChar, afterChar, splitChar_of_count_zero x xs hxs]
    · have hb : (x == c) = false := by simpa using hx
      have hxs : xs.count c = 1 := by
        rw [List.count_cons] at h
        simp [hb] at h
        omega
      obtain ⟨pre, hpre⟩ := ih hxs
      refine ⟨x :: pre, ?_⟩
      simp only [splitChar, afterChar, hb, Bool.false_eq_true, if_false, hpre]

/-- The per-record address condition of the amended C7: the address is
absent when the name has no `@`; with an `@` it is element 1 of the
`@`-split of the name (the segment between the first and second `@`); and
when the name has exactly one `@` that segment is precisely the substring
after the first `@`. -/
def addrFieldOk (name : String) (addr : Option String) : Bool :=
  if strContains name '@' then
    addr == some ((strSplitOn name '@').getD 1 "")
      && (name.toList.count '@' != 1
          || addr == some (String.mk (afterChar '@' name.toList)))
  else addr == none

mutual
/-- Every record of a tree satisfies `addrFieldOk`. -/
def recAddrOk : RecNode → Bool
  | .mk _ name addr _ children => addrFieldOk name addr && recAddrOkList children

def recAddrOkList : List RecNode → Bool
  | [] => true
  | r :: rs => recAddrOk r && recAddrOkList rs
end

theorem addrFieldOk_addressOf (name : String) : addrFieldOk name (addressOf name) = true := by
  by_cases h : strContains name '@'
  · simp only [addrFieldOk, addressOf, h, if_true, Bool.and_eq_true, Bool.or_eq_true]
    refine ⟨by simp, ?_⟩
    by_cases h1 : name.toList.count '@' = 1
    · refine Or.inr ?_
      obtain ⟨pre, hpre⟩ := splitChar_of_count_one '@' name.toList h1
      simp only [String.toList] at hpre
      simp [strSplitOn, hpre]
    · exact Or.inl (by simpa using h1)
  · simp [addrFieldOk, addressOf, h]

mutual
theorem build_node_dict_addrOk (p : String) (t : RawNode) :
    recAddrOk (build_node_dict p t) = true := by
  cases t with
  | mk nm props cs =>
    simp only [build_node_dict, recAddrOk, Bool.and_eq_true]
    exact ⟨addrFieldOk_addressOf (nodeNameOf p), buildChildrenAux_addrOk p cs⟩

theorem buildChildrenAux_addrOk (p : String) (cs : List RawNode) :
    recAddrOkList (buildChildrenAux p cs) = true := by
  cases cs with
  | nil => simp [buildChildrenAux, recAddrOkList]
  | cons c cs' =>
    simp only [buildChildrenAux, recAddrOkList, Bool.and_eq_true]
    exact ⟨build_node_dict_addrOk (joinPath p c.name) c, buildChildrenAux_addrOk p cs'⟩
end

/-- C7 counterexample: the record produced for a node named `a@b@c` (two
`@`s in the name) carries address `"b"`, the segment between the first and
second `@`, while the substring after the first `@` is `"b@c"`. -/
theorem C7_address_cex :
    (((traverse_tree (RawNode.mk "" [] [RawNode.mk "a@b@c" [] []])).headD
        (RecNode.mk "" "" none [] [])).children.headD
        (RecNode.mk "" "" none [] [])).address = some "b"
  ∧ String.mk (afterChar '@' "a@b@c".toList) = "b@c"
  ∧ some "b" ≠ some "b@c" :=
  ⟨by decide, by decide, by decide⟩

/-- C7 (amended): in every record produced by `traverse_tree`, the address
field is absent when the node's name contains no `@`, and otherwise equals
element 1 of the `@`-split of the name — the segment between the first and
second `@` — which coincides with the substring after the first `@`
whenever the name contains exactly one `@`. -/
theorem C7_traverse_address_rule (t : RawNode) :
    (traverse_tree t).all recAddrOk = true := by
  simp [traverse_tree, build_node_dict_addrOk]

/-! ## Consistency of the two traversals (C5) -/

mutual
/-- Forget the address annotation of a record, producing the node-object
form with the same name, path, properties, and children. -/
def RecNode.toFdt : RecNode → FdtNode
  | .mk path name _ props children => FdtNode.mk name path props (recListToFdt children)

def recListToFdt : List RecNode → List FdtNode
  | [] => []
  | r :: rs => RecNode.toFdt r :: recListToFdt rs
end

mutual
theorem build_toFdt (p : String) (t : RawNode) :
    RecNode.toFdt (build_node_dict p t) = convert_fdt_node_to_custom p t := by
  cases t with
  | mk nm props cs =>
    simp only [build_node_dict, convert_fdt_node_to_custom, RecNode.toFdt]
    rw [buildList_toFdt p cs]

theorem buildList_toFdt (p : String) (cs : List RawNode) :
    recListToFdt (buildChildrenAux p cs) = convertChildrenAux p cs := by
  cases cs with
  | nil => simp [buildChildrenAux, convertChildrenAux, recListToFdt]
  | cons c cs' =>
    simp only [buildChildrenAux, convertChildrenAux, recListToFdt]
    rw [build_toFdt (joinPath p c.name) c, buildList_toFdt p cs']
end

/-- C5: the two traversal entry points are behaviorally consistent — the
record tree of `traverse_tree`, stripped of its address annotation, is
exactly the node-object tree of `get_root_node` (same paths, names, decoded
properties, and child order) — and both use the path-joining rule that
maps root `/` and name `n` to `/n` (no double slash) and a non-root path
`p` and name `n` to `p/n`. -/
theorem C5_traversals_consistent (t : RawNode) :
    (traverse_tree t).map RecNode.toFdt = [get_root_node t]
  ∧ (∀ n : String, joinPath "/" n = "/" ++ n)
  ∧ (∀ p n : String, p ≠ "/" → joinPath p n = p ++ "/" ++ n) := by
  refine ⟨?_, fun n => by simp [joinPath], fun p n hp => by simp [joinPath, hp]⟩
  simp [traverse_tree, get_root_node, build_toFdt]

/-- Witness for C5 on a one-child tree, instantiating the non-root
path-joining clause at `p = "/x"`. -/
theorem C5_traversals_consistent_witness :
    (traverse_tree (RawNode.mk "" [] [RawNode.mk "uart@1000" [("reg", [0, 0, 16, 0])] []])).map
        RecNode.toFdt
      = [get_root_node (RawNode.mk "" [] [RawNode.mk "uart@1000" [("reg", [0, 0, 16, 0])] []])]
  ∧ ("/x" : String) ≠ "/"
  ∧ joinPath "/x" "y" = "/x" ++ "/" ++ "y" :=
  ⟨(C5_traversals_consistent (RawNode.mk "" [] [RawNode.mk "uart@1000" [("reg", [0, 0, 16, 0])] []])).1,
   by decide,
   (C5_traversals_consistent (RawNode.mk "" [] [RawNode.mk "uart@1000" [("reg", [0, 0, 16, 0])] []])).2.2
     "/x" "y" (by decide)⟩

end DtbParser
